import Mathlib

/-!
Formalisation of the segment-packing core of
src/data/pipeline/audio-spliter/audio-spliter.py (class AudioSplitter).

The loop in AudioSplitter.split_audio consumes an ordered list of
silence-delimited audio segments and regroups them.  We embed a segment by
its duration in milliseconds (a natural number, pydub reports `len` of an
AudioSegment in ms); the payload of an accumulator or emitted group is the
list of the constituent segments, in order, so that the concatenated audio
is recoverable and its pydub length is the sum of the list.

The mutable loop state (`current_segment`, `segment_start`, and the emitted
files) becomes an explicit `PackState`; `split_audio` is the fold of the
loop body over the input followed by the trailing flush.  Python `//` on
non-negative integers is `Nat` division.
-/

namespace AudioSplitter

/-- Configuration slice relevant to the packing loop: the duration band, in
milliseconds (constructor defaults: 10000 and 15000). -/
structure Config where
  min_segment_length : Nat
  max_segment_length : Nat
deriving Repr, DecidableEq

/-- One emitted group: `save_segment(current, name, start_time, end_time)`
with the payload kept as the list of constituent segment durations.  The
times are in whole seconds, exactly as the ints the code passes. -/
structure OutputGroup where
  start_time_s : Nat
  end_time_s : Nat
  payload : List Nat
deriving Repr, DecidableEq

/-- Loop state of split_audio: `current_segment` (as its list of
constituent segment durations), `segment_start` (seconds), and the groups
saved so far, in emission order. -/
structure PackState where
  current_segment : List Nat
  segment_start : Nat
  out : List OutputGroup
deriving Repr, DecidableEq

/-- Pydub length in ms of a concatenation of segments. -/
def segLen (p : List Nat) : Nat := p.sum

/-- One iteration of the `for segment in segments` loop body:

  if len(current) + len(segment) < min_segment_length: append;
  elif len(current) + len(segment) > max_segment_length: flush the
    pre-append accumulator at [segment_start, segment_start + len(current)//1000]
    and reseed the accumulator with the triggering segment;
  else: append, then flush at
    [segment_start, segment_start + len(current)//1000] and empty the
    accumulator.  Every flush sets segment_start to the flushed end. -/
def splitStep (cfg : Config) (s : PackState) (seg : Nat) : PackState :=
  if segLen s.current_segment + seg < cfg.min_segment_length then
    { s with current_segment := s.current_segment ++ [seg] }
  else if cfg.max_segment_length < segLen s.current_segment + seg then
    { current_segment := [seg],
      segment_start := s.segment_start + segLen s.current_segment / 1000,
      out := s.out ++
        [⟨s.segment_start,
          s.segment_start + segLen s.current_segment / 1000,
          s.current_segment⟩] }
  else
    { current_segment := [],
      segment_start :=
        s.segment_start + segLen (s.current_segment ++ [seg]) / 1000,
      out := s.out ++
        [⟨s.segment_start,
          s.segment_start + segLen (s.current_segment ++ [seg]) / 1000,
          s.current_segment ++ [seg]⟩] }

/-- State before the loop: empty (silent) accumulator, segment_start = 0,
nothing saved. -/
def initState : PackState := ⟨[], 0, []⟩

/-- The trailing flush after the loop: `if len(current_segment) > 0`, save
it at [segment_start, segment_start + len(current)//1000]. -/
def splitFinish (s : PackState) : List OutputGroup :=
  if 0 < segLen s.current_segment then
    s.out ++
      [⟨s.segment_start,
        s.segment_start + segLen s.current_segment / 1000,
        s.current_segment⟩]
  else s.out

/-- The packing core of AudioSplitter.split_audio: fold the loop body over
the segment list, then perform the trailing flush.  Returns the emitted
groups in order. -/
def split_audio (cfg : Config) (segs : List Nat) : List OutputGroup :=
  splitFinish (segs.foldl (splitStep cfg) initState)

/-- Concatenation of the payloads of a list of emitted groups. -/
def concatPayloads : List OutputGroup → List Nat
  | [] => []
  | g :: gs => g.payload ++ concatPayloads gs

/- Branch lemmas for the loop body. -/

theorem splitStep_A (cfg : Config) (s : PackState) (seg : Nat)
    (h : segLen s.current_segment + seg < cfg.min_segment_length) :
    splitStep cfg s seg = { s with current_segment := s.current_segment ++ [seg] } := by
  simp [splitStep, h]

theorem splitStep_B (cfg : Config) (s : PackState) (seg : Nat)
    (h1 : ¬ segLen s.current_segment + seg < cfg.min_segment_length)
    (h2 : cfg.max_segment_length < segLen s.current_segment + seg) :
    splitStep cfg s seg =
      { current_segment := [seg],
        segment_start := s.segment_start + segLen s.current_segment / 1000,
        out := s.out ++
          [⟨s.segment_start,
            s.segment_start + segLen s.current_segment / 1000,
            s.current_segment⟩] } := by
  simp [splitStep, h1, h2]

theorem splitStep_C (cfg : Config) (s : PackState) (seg : Nat)
    (h1 : ¬ segLen s.current_segment + seg < cfg.min_segment_length)
    (h2 : ¬ cfg.max_segment_length < segLen s.current_segment + seg) :
    splitStep cfg s seg =
      { current_segment := [],
        segment_start :=
          s.segment_start + segLen (s.current_segment ++ [seg]) / 1000,
        out := s.out ++
          [⟨s.segment_start,
            s.segment_start + segLen (s.current_segment ++ [seg]) / 1000,
            s.current_segment ++ [seg]⟩] } := by
  simp [splitStep, h1, h2]

/- Small list helpers. -/

theorem concatPayloads_append (l1 l2 : List OutputGroup) :
    concatPayloads (l1 ++ l2) = concatPayloads l1 ++ concatPayloads l2 := by
  induction l1 with
  | nil => simp [concatPayloads]
  | cons g gs ih => simp [concatPayloads, ih]

theorem segLen_append (p q : List Nat) :
    segLen (p ++ q) = segLen p + segLen q := by
  simp [segLen]

theorem segLen_eq_zero_mem (p : List Nat) (hp : segLen p = 0) :
    ∀ x ∈ p, x = 0 := by
  induction p with
  | nil => simp
  | cons a t ih =>
    simp only [segLen, List.sum_cons] at hp
    intro x hx
    rcases List.mem_cons.mp hx with h | h
    · subst h; omega
    · exact ih (by simp only [segLen]; omega) x h

theorem mem_concatPayloads (out : List OutputGroup) (g : OutputGroup)
    (hg : g ∈ out) (x : Nat) (hx : x ∈ g.payload) : x ∈ concatPayloads out := by
  induction out with
  | nil => simp at hg
  | cons a t ih =>
    rcases List.mem_cons.mp hg with h | h
    · subst h; exact List.mem_append.mpr (Or.inl hx)
    · exact List.mem_append.mpr (Or.inr (ih h))

/- Conservation bookkeeping: at every point of the loop, the payloads saved
so far followed by the live accumulator are exactly the segments consumed
so far. -/

theorem conserve_step (cfg : Config) (s : PackState) (seg : Nat) :
    concatPayloads (splitStep cfg s seg).out ++ (splitStep cfg s seg).current_segment
      = (concatPayloads s.out ++ s.current_segment) ++ [seg] := by
  by_cases h1 : segLen s.current_segment + seg < cfg.min_segment_length
  · rw [splitStep_A cfg s seg h1]
    simp
  · by_cases h2 : cfg.max_segment_length < segLen s.current_segment + seg
    · rw [splitStep_B cfg s seg h1 h2]
      simp [concatPayloads_append, concatPayloads]
    · rw [splitStep_C cfg s seg h1 h2]
      simp [concatPayloads_append, concatPayloads]

theorem conserve_fold (cfg : Config) (l : List Nat) :
    ∀ s : PackState,
      concatPayloads (l.foldl (splitStep cfg) s).out
          ++ (l.foldl (splitStep cfg) s).current_segment
        = (concatPayloads s.out ++ s.current_segment) ++ l := by
  induction l with
  | nil => intro s; simp
  | cons a t ih =>
    intro s
    rw [List.foldl_cons, ih (splitStep cfg s a), conserve_step cfg s a]
    simp

/- Timestamp bookkeeping: every flush writes the interval
[segment_start, segment_start + len//1000] and then sets segment_start to
the end just written, so the emitted intervals are chained. -/

/-- End time of the last emitted group, 0 when nothing was emitted yet. -/
def lastEnd (out : List OutputGroup) : Nat :=
  (out.getLast?).elim 0 OutputGroup.end_time_s

/-- Timestamp invariant tying the emitted groups to the running
segment_start value. -/
def OutInv (out : List OutputGroup) (st : Nat) : Prop :=
  st = lastEnd out ∧
  (∀ g ∈ out, g.end_time_s = g.start_time_s + segLen g.payload / 1000) ∧
  List.Chain' (fun a b => a.end_time_s = b.start_time_s) out ∧
  (∀ g, out.head? = some g → g.start_time_s = 0)

theorem OutInv_init : OutInv [] 0 := by
  refine ⟨by simp [lastEnd], by simp, by simp, by simp⟩

theorem OutInv_append (out : List OutputGroup) (st : Nat) (p : List Nat)
    (h : OutInv out st) :
    OutInv (out ++ [⟨st, st + segLen p / 1000, p⟩]) (st + segLen p / 1000) := by
  obtain ⟨hlast, hok, hchain, hhead⟩ := h
  refine ⟨?_, ?_, ?_, ?_⟩
  · rw [lastEnd, List.getLast?_concat]
    rfl
  · intro g hg
    rcases List.mem_append.mp hg with hmem | hmem
    · exact hok g hmem
    · simp only [List.mem_singleton] at hmem
      subst hmem; rfl
  · refine List.Chain'.append hchain (List.chain'_singleton _) ?_
    intro x hx y hy
    simp only [List.head?_cons, Option.mem_def, Option.some.injEq] at hy
    subst hy
    rw [Option.mem_def] at hx
    show x.end_time_s = st
    rw [hlast, lastEnd, hx]
    rfl
  · intro g hg
    cases out with
    | nil =>
      simp only [List.nil_append, List.head?_cons, Option.some.injEq] at hg
      subst hg
      show st = 0
      rw [hlast, lastEnd]
      rfl
    | cons a t =>
      simp only [List.cons_append, List.head?_cons, Option.some.injEq] at hg
      subst hg
      exact hhead a rfl

theorem OutInv_step (cfg : Config) (s : PackState) (seg : Nat)
    (h : OutInv s.out s.segment_start) :
    OutInv (splitStep cfg s seg).out (splitStep cfg s seg).segment_start := by
  by_cases h1 : segLen s.current_segment + seg < cfg.min_segment_length
  · rw [splitStep_A cfg s seg h1]
    exact h
  · by_cases h2 : cfg.max_segment_length < segLen s.current_segment + seg
    · rw [splitStep_B cfg s seg h1 h2]
      exact OutInv_append s.out s.segment_start s.current_segment h
    · rw [splitStep_C cfg s seg h1 h2]
      exact OutInv_append s.out s.segment_start (s.current_segment ++ [seg]) h

theorem OutInv_fold (cfg : Config) (l : List Nat) :
    ∀ s : PackState, OutInv s.out s.segment_start →
      OutInv ((l.foldl (splitStep cfg) s).out)
        ((l.foldl (splitStep cfg) s).segment_start) := by
  induction l with
  | nil => intro s h; exact h
  | cons a t ih =>
    intro s h
    rw [List.foldl_cons]
    exact ih (splitStep cfg s a) (OutInv_step cfg s a h)

theorem OutInv_finish (s : PackState) (h : OutInv s.out s.segment_start) :
    ∃ st : Nat, OutInv (splitFinish s) st := by
  unfold splitFinish
  by_cases hc : 0 < segLen s.current_segment
  · rw [if_pos hc]
    exact ⟨_, OutInv_append s.out s.segment_start s.current_segment h⟩
  · rw [if_neg hc]
    exact ⟨s.segment_start, h⟩

theorem OutInv_split_audio (cfg : Config) (segs : List Nat) :
    ∃ st : Nat, OutInv (split_audio cfg segs) st := by
  unfold split_audio
  exact OutInv_finish _ (OutInv_fold cfg segs initState OutInv_init)

/- Band analysis: which emitted groups can fall outside the configured
band, assuming min_segment_length <= max_segment_length. -/

theorem headD_append_of_ne_nil (p q : List Nat) (h : p ≠ []) :
    (p ++ q).headD 0 = p.headD 0 := by
  cases p with
  | nil => exact absurd rfl h
  | cons a t => rfl

/-- Relation between an emitted group and the payload that follows it (the
next emitted payload, or the live accumulator): if the group is below the
floor, it was flushed by the overflow branch, so its duration plus the
first following segment exceeds the ceiling. -/
def forcedPair (cfg : Config) (a : OutputGroup) (nxt : List Nat) : Prop :=
  segLen a.payload < cfg.min_segment_length →
    cfg.max_segment_length < segLen a.payload + nxt.headD 0 ∧ nxt ≠ []

/-- Band invariant of the loop state: chained forcedPair over the emitted
groups and the accumulator, and every over-ceiling payload (emitted or
live) is a single input segment. -/
def BandInv (cfg : Config) (s : PackState) : Prop :=
  List.Chain' (fun a b => forcedPair cfg a b.payload) s.out ∧
  (∀ g, s.out.getLast? = some g → forcedPair cfg g s.current_segment) ∧
  (∀ g ∈ s.out, cfg.max_segment_length < segLen g.payload → ∃ d, g.payload = [d]) ∧
  (cfg.max_segment_length < segLen s.current_segment → ∃ d, s.current_segment = [d])

theorem BandInv_init (cfg : Config) : BandInv cfg initState := by
  refine ⟨by simp [initState], by simp [initState], by simp [initState], ?_⟩
  intro h
  simp [initState, segLen] at h

theorem BandInv_step (cfg : Config)
    (hband : cfg.min_segment_length ≤ cfg.max_segment_length)
    (s : PackState) (seg : Nat) (h : BandInv cfg s) :
    BandInv cfg (splitStep cfg s seg) := by
  obtain ⟨hchain, hlast, hout, hcur⟩ := h
  by_cases h1 : segLen s.current_segment + seg < cfg.min_segment_length
  · rw [splitStep_A cfg s seg h1]
    refine ⟨hchain, ?_, hout, ?_⟩
    · intro g hg hunder
      obtain ⟨hover, hne⟩ := hlast g hg hunder
      rw [headD_append_of_ne_nil s.current_segment [seg] hne]
      exact ⟨hover, by simp⟩
    · intro hgt
      exfalso
      simp only [segLen, List.sum_append, List.sum_cons, List.sum_nil] at hgt h1
      omega
  · by_cases h2 : cfg.max_segment_length < segLen s.current_segment + seg
    · rw [splitStep_B cfg s seg h1 h2]
      refine ⟨?_, ?_, ?_, fun _ => ⟨seg, rfl⟩⟩
      · refine List.Chain'.append hchain (List.chain'_singleton _) ?_
        intro x hx y hy
        simp only [List.head?_cons, Option.mem_def, Option.some.injEq] at hy
        subst hy
        exact hlast x (Option.mem_def.mp hx)
      · intro g hg
        rw [List.getLast?_concat] at hg
        cases hg
        intro hunder
        refine ⟨?_, by simp⟩
        simpa [List.headD] using h2
      · intro g hg hgt
        rcases List.mem_append.mp hg with hmem | hmem
        · exact hout g hmem hgt
        · simp only [List.mem_singleton] at hmem
          subst hmem
          exact hcur hgt
    · rw [splitStep_C cfg s seg h1 h2]
      refine ⟨?_, ?_, ?_, ?_⟩
      · refine List.Chain'.append hchain (List.chain'_singleton _) ?_
        intro x hx y hy
        simp only [List.head?_cons, Option.mem_def, Option.some.injEq] at hy
        subst hy
        intro hunder
        obtain ⟨hover, hne⟩ := hlast x (Option.mem_def.mp hx) hunder
        rw [headD_append_of_ne_nil s.current_segment [seg] hne]
        exact ⟨hover, by simp⟩
      · intro g hg
        rw [List.getLast?_concat] at hg
        cases hg
        intro hunder
        exfalso
        simp only [segLen, List.sum_append, List.sum_cons, List.sum_nil] at hunder h1
        omega
      · intro g hg hgt
        rcases List.mem_append.mp hg with hmem | hmem
        · exact hout g hmem hgt
        · simp only [List.mem_singleton] at hmem
          subst hmem
          exfalso
          simp only [segLen, List.sum_append, List.sum_cons, List.sum_nil] at hgt h2
          omega
      · intro hgt
        simp [segLen] at hgt

theorem BandInv_fold (cfg : Config)
    (hband : cfg.min_segment_length ≤ cfg.max_segment_length)
    (l : List Nat) :
    ∀ s : PackState, BandInv cfg s → BandInv cfg (l.foldl (splitStep cfg) s) := by
  induction l with
  | nil => intro s h; exact h
  | cons a t ih =>
    intro s h
    rw [List.foldl_cons]
    exact ih (splitStep cfg s a) (BandInv_step cfg hband s a h)

theorem BandInv_finish (cfg : Config) (s : PackState) (h : BandInv cfg s) :
    List.Chain' (fun a b => forcedPair cfg a b.payload) (splitFinish s) ∧
    (∀ g ∈ splitFinish s, cfg.max_segment_length < segLen g.payload →
      ∃ d, g.payload = [d]) := by
  obtain ⟨hchain, hlast, hout, hcur⟩ := h
  unfold splitFinish
  by_cases hc : 0 < segLen s.current_segment
  · rw [if_pos hc]
    constructor
    · refine List.Chain'.append hchain (List.chain'_singleton _) ?_
      intro x hx y hy
      simp only [List.head?_cons, Option.mem_def, Option.some.injEq] at hy
      subst hy
      exact hlast x (Option.mem_def.mp hx)
    · intro g hg hgt
      rcases List.mem_append.mp hg with hmem | hmem
      · exact hout g hmem hgt
      · simp only [List.mem_singleton] at hmem
        subst hmem
        exact hcur hgt
  · rw [if_neg hc]
    exact ⟨hchain, hout⟩

/-- Every duration occurring in an emitted payload is one of the input
segments. -/
theorem mem_split_audio (cfg : Config) (segs : List Nat) (g : OutputGroup)
    (hg : g ∈ split_audio cfg segs) (x : Nat) (hx : x ∈ g.payload) :
    x ∈ segs := by
  have hcons := conserve_fold cfg segs initState
  simp only [initState, concatPayloads, List.nil_append] at hcons
  unfold split_audio splitFinish at hg
  by_cases hc : 0 < segLen (segs.foldl (splitStep cfg) initState).current_segment
  · rw [if_pos hc] at hg
    rcases List.mem_append.mp hg with hmem | hmem
    · have hmem2 := mem_concatPayloads _ g hmem x hx
      rw [← hcons]
      exact List.mem_append.mpr (Or.inl hmem2)
    · simp only [List.mem_singleton] at hmem
      subst hmem
      rw [← hcons]
      exact List.mem_append.mpr (Or.inr hx)
  · rw [if_neg hc] at hg
    have hmem2 := mem_concatPayloads _ g hg x hx
    rw [← hcons]
    exact List.mem_append.mpr (Or.inl hmem2)

/- Further helpers: the trailing flush and conservation, all-zero inputs,
the overflow branch on an empty accumulator, and head preservation. -/

theorem concat_splitFinish (s : PackState) :
    ∃ zs : List Nat,
      concatPayloads (splitFinish s) ++ zs
          = concatPayloads s.out ++ s.current_segment ∧
      segLen zs = 0 := by
  unfold splitFinish
  by_cases hc : 0 < segLen s.current_segment
  · rw [if_pos hc]
    exact ⟨[], by simp [concatPayloads_append, concatPayloads], rfl⟩
  · rw [if_neg hc]
    exact ⟨s.current_segment, rfl, by omega⟩

theorem fold_zero (cfg : Config) (hmin : 0 < cfg.min_segment_length)
    (l : List Nat) :
    ∀ s : PackState, segLen l = 0 → segLen s.current_segment = 0 →
      (l.foldl (splitStep cfg) s).out = s.out ∧
      segLen (l.foldl (splitStep cfg) s).current_segment = 0 := by
  induction l with
  | nil => intro s _ hs; exact ⟨rfl, hs⟩
  | cons a t ih =>
    intro s hl hs
    have ha : a = 0 := by
      simp only [segLen, List.sum_cons] at hl; omega
    have ht : segLen t = 0 := by
      simp only [segLen, List.sum_cons] at hl ⊢; omega
    subst ha
    have hA : segLen s.current_segment + 0 < cfg.min_segment_length := by omega
    rw [List.foldl_cons, splitStep_A cfg s 0 hA]
    refine ih { s with current_segment := s.current_segment ++ [0] } ht ?_
    rw [segLen_append] at *
    simp only [segLen, List.sum_cons, List.sum_nil]
    simp only [segLen] at hs
    omega

theorem stepB_empty (cfg : Config) (s : PackState) (seg : Nat)
    (hband : cfg.min_segment_length ≤ cfg.max_segment_length)
    (hover : cfg.max_segment_length < seg)
    (hs : s.current_segment = []) :
    splitStep cfg s seg =
      ⟨[seg], s.segment_start,
        s.out ++ [⟨s.segment_start, s.segment_start, []⟩]⟩ := by
  have h2 : cfg.max_segment_length < segLen s.current_segment + seg := by
    rw [hs]; simpa [segLen] using hover
  have h1 : ¬ segLen s.current_segment + seg < cfg.min_segment_length := by
    rw [hs]; simp only [segLen, List.sum_nil]; omega
  rw [splitStep_B cfg s seg h1 h2, hs]
  simp [segLen]

theorem head?_append_left {α : Type} (l1 l2 : List α) (h : l1 ≠ []) :
    (l1 ++ l2).head? = l1.head? := by
  cases l1 with
  | nil => exact absurd rfl h
  | cons a t => rfl

theorem out_head_step (cfg : Config) (s : PackState) (seg : Nat)
    (h : s.out ≠ []) :
    (splitStep cfg s seg).out.head? = s.out.head? ∧
    (splitStep cfg s seg).out ≠ [] := by
  by_cases h1 : segLen s.current_segment + seg < cfg.min_segment_length
  · rw [splitStep_A cfg s seg h1]
    exact ⟨rfl, h⟩
  · by_cases h2 : cfg.max_segment_length < segLen s.current_segment + seg
    · rw [splitStep_B cfg s seg h1 h2]
      exact ⟨head?_append_left s.out _ h, by simp⟩
    · rw [splitStep_C cfg s seg h1 h2]
      exact ⟨head?_append_left s.out _ h, by simp⟩

theorem out_head_fold (cfg : Config) (l : List Nat) :
    ∀ s : PackState, s.out ≠ [] →
      ((l.foldl (splitStep cfg) s).out.head? = s.out.head? ∧
       (l.foldl (splitStep cfg) s).out ≠ []) := by
  induction l with
  | nil => intro s h; exact ⟨rfl, h⟩
  | cons a t ih =>
    intro s h
    obtain ⟨hh, hne⟩ := out_head_step cfg s a h
    rw [List.foldl_cons]
    obtain ⟨hh2, hne2⟩ := ih (splitStep cfg s a) hne
    exact ⟨hh2.trans hh, hne2⟩

theorem out_head_finish (s : PackState) (h : s.out ≠ []) :
    (splitFinish s).head? = s.out.head? := by
  unfold splitFinish
  by_cases hc : 0 < segLen s.current_segment
  · rw [if_pos hc]
    exact head?_append_left s.out _ h
  · rw [if_neg hc]

/- Sanity checks of the embedding against the scenarios of the spec. -/

example : split_audio ⟨10000, 15000⟩ [3000, 3000, 3000] = [⟨0, 9, [3000, 3000, 3000]⟩] := by
  decide

example : split_audio ⟨10000, 15000⟩ [6000, 6000] = [⟨0, 12, [6000, 6000]⟩] := by
  decide

example : split_audio ⟨10000, 15000⟩ [9000, 9000] = [⟨0, 9, [9000]⟩, ⟨9, 18, [9000]⟩] := by
  decide

example : split_audio ⟨10000, 15000⟩ [] = [] := by decide

/- Claim theorems. -/

/-- Claim C1 counterexample: the exact-containment half of the claim fails.
With the default band, the single zero-duration input segment is absorbed
by the accumulation branch; the trailing flush guard `len(current) > 0` is
false, so the segment is dropped and the concatenated output payloads are
empty rather than containing the input segment exactly once. -/
theorem C1_counterexample :
    concatPayloads (split_audio ⟨10000, 15000⟩ [0]) ≠ [0] := by
  decide

/-- Claim C1 (amended): conservation holds up to a dropped trailing run of
zero-duration segments.  For every config and input list there is a list zs
of total duration zero with payload concatenation ++ zs = input (so nothing
is duplicated or reordered, and every dropped segment has zero duration),
and the sum of the output payload durations equals the sum of the input
durations exactly. -/
theorem C1_conservation (cfg : Config) (segs : List Nat) :
    ∃ zs : List Nat,
      concatPayloads (split_audio cfg segs) ++ zs = segs ∧
      segLen zs = 0 ∧
      segLen (concatPayloads (split_audio cfg segs)) = segLen segs := by
  have hcons := conserve_fold cfg segs initState
  obtain ⟨zs, hz1, hz2⟩ := concat_splitFinish (segs.foldl (splitStep cfg) initState)
  simp only [initState, concatPayloads, List.nil_append] at hcons hz1
  rw [hcons] at hz1
  have hmain : concatPayloads (split_audio cfg segs) ++ zs = segs := by
    unfold split_audio
    simpa only [initState] using hz1
  refine ⟨zs, hmain, hz2, ?_⟩
  conv_rhs => rw [← hmain]
  rw [segLen_append, hz2]
  omega

/-- Claim C2: for every input and config the emitted intervals are
well-formed (start_time_s <= end_time_s) and contiguous: each group ends
where the next one starts. -/
theorem C2_contiguity (cfg : Config) (segs : List Nat) :
    (∀ g ∈ split_audio cfg segs, g.start_time_s ≤ g.end_time_s) ∧
    List.Chain' (fun a b => a.end_time_s = b.start_time_s)
      (split_audio cfg segs) := by
  obtain ⟨st, h⟩ := OutInv_split_audio cfg segs
  unfold OutInv at h
  refine ⟨?_, h.2.2.1⟩
  intro g hg
  rw [h.2.1 g hg]
  omega

/-- Witness for C2 at Scenario 2. -/
theorem C2_witness :
    OutputGroup.start_time_s ⟨0, 12, [6000, 6000]⟩ ≤
      OutputGroup.end_time_s ⟨0, 12, [6000, 6000]⟩ ∧
    List.Chain' (fun a b => a.end_time_s = b.start_time_s)
      (split_audio ⟨10000, 15000⟩ [6000, 6000]) :=
  ⟨(C2_contiguity ⟨10000, 15000⟩ [6000, 6000]).1 ⟨0, 12, [6000, 6000]⟩
      (by decide),
   (C2_contiguity ⟨10000, 15000⟩ [6000, 6000]).2⟩

/-- Claim C3 counterexample: the under-floor half of the claim fails.  On
Scenario 3 itself (segments [9000, 9000], band [10000, 15000]) the first
emitted group has payload duration 9000, below the floor 10000; it is not
the last group (two groups are emitted), and no input segment exceeds the
ceiling 15000 (both are 9000), so the group was not forced by a single
oversized input segment. -/
theorem C3_counterexample :
    split_audio ⟨10000, 15000⟩ [9000, 9000]
        = [⟨0, 9, [9000]⟩, ⟨9, 18, [9000]⟩] ∧
    segLen [9000] < 10000 ∧ (9000 : Nat) ≤ 15000 := by
  decide

/-- Claim C3 (amended): assuming min_segment_length <= max_segment_length,
a group below the floor can also arise whenever the overflow branch fired:
for adjacent groups, if a group is below the floor then its duration plus
the first segment of the next payload exceeds the ceiling (and the next
payload is non-empty).  The over-ceiling half holds as claimed: a group
above the ceiling is exactly one input segment whose own duration exceeds
the ceiling. -/
theorem C3_band (cfg : Config) (segs : List Nat)
    (hband : cfg.min_segment_length ≤ cfg.max_segment_length) :
    List.Chain'
      (fun a b => segLen a.payload < cfg.min_segment_length →
        cfg.max_segment_length < segLen a.payload + b.payload.headD 0 ∧
        b.payload ≠ [])
      (split_audio cfg segs) ∧
    (∀ g ∈ split_audio cfg segs,
      cfg.max_segment_length < segLen g.payload →
        ∃ d, g.payload = [d] ∧ cfg.max_segment_length < d ∧ d ∈ segs) := by
  have hb := BandInv_fold cfg hband segs initState (BandInv_init cfg)
  have hf := BandInv_finish cfg _ hb
  refine ⟨hf.1, ?_⟩
  intro g hg hgt
  obtain ⟨d, hd⟩ := hf.2 g hg hgt
  refine ⟨d, hd, ?_, ?_⟩
  · rw [hd] at hgt
    simpa [segLen] using hgt
  · exact mem_split_audio cfg segs g hg d (by rw [hd]; simp)

/-- Witness for C3 on an oversized single segment. -/
theorem C3_witness :
    ∃ d, OutputGroup.payload ⟨0, 20, [20000]⟩ = [d] ∧ 15000 < d ∧
      d ∈ [20000] :=
  (C3_band ⟨10000, 15000⟩ [20000] (by decide)).2 ⟨0, 20, [20000]⟩
    (by decide) (by decide)

/-- Claim C4: in the overflow branch (projected duration above the
ceiling, with a valid band so the accumulation branch cannot shadow it),
the accumulator is flushed with its pre-append payload at
[segment_start, segment_start + len(current)//1000], the new accumulator
is seeded with the triggering segment alone (it is not dropped), and the
new start offset is the just-flushed end time (the code keeps this offset
in seconds; the spec states the same instant in milliseconds). -/
theorem C4_caseB (cfg : Config) (s : PackState) (seg : Nat)
    (hband : cfg.min_segment_length ≤ cfg.max_segment_length)
    (hover : cfg.max_segment_length < segLen s.current_segment + seg) :
    splitStep cfg s seg =
      { current_segment := [seg],
        segment_start := s.segment_start + segLen s.current_segment / 1000,
        out := s.out ++
          [⟨s.segment_start,
            s.segment_start + segLen s.current_segment / 1000,
            s.current_segment⟩] } := by
  have h1 : ¬ segLen s.current_segment + seg < cfg.min_segment_length := by
    omega
  exact splitStep_B cfg s seg h1 hover

/-- Witness for C4 at the Scenario 3 overflow step. -/
theorem C4_witness :
    splitStep ⟨10000, 15000⟩ ⟨[9000], 0, []⟩ 9000 =
      ⟨[9000], 9, [⟨0, 9, [9000]⟩]⟩ :=
  C4_caseB ⟨10000, 15000⟩ ⟨[9000], 0, []⟩ 9000 (by decide) (by decide)

/-- Claim C5 counterexample: the constructor performs no band validation
and the packing loop has no failure path, so with min_segment_length=20000
and max_segment_length=10000 no InvalidConfig is surfaced: the segment is
processed and an output group is emitted. -/
theorem C5_counterexample :
    split_audio ⟨20000, 10000⟩ [12000] = [⟨0, 12, [12000]⟩] ∧
    split_audio ⟨20000, 10000⟩ [12000] ≠ [] := by
  decide

/-- Claim C5 (amended): no InvalidConfig check exists anywhere in the
code.  With the inverted band of Scenario 5 the splitter simply runs the
same loop: each 12000 ms segment is first accumulated (since the projected
duration stays below the 20000 floor, the accumulation branch fires even
though 12000 already exceeds the 10000 ceiling), and groups are emitted by
the overflow branch and the trailing flush. -/
theorem C5_no_validation :
    split_audio ⟨20000, 10000⟩ [12000, 12000] =
      [⟨0, 12, [12000]⟩, ⟨12, 24, [12000]⟩] := by
  decide

/-- Claim C6 counterexample: the zero-total-duration half fails when
min_segment_length = 0.  A single zero-duration segment then takes the
within-band branch (0 is not below the floor 0 and not above the ceiling),
so a group is emitted even though the total input duration is zero. -/
theorem C6_counterexample :
    segLen [0] = 0 ∧
    split_audio ⟨0, 15000⟩ [0] = [⟨0, 0, [0]⟩] ∧
    split_audio ⟨0, 15000⟩ [0] ≠ [] := by
  decide

/-- Claim C6 (amended): empty input always yields empty output; when the
floor is positive, any input of total duration zero yields empty output;
and whenever the accumulator has positive residual duration, the trailing
flush emits it as exactly one final group, appended after the groups
emitted by the loop, regardless of the floor. -/
theorem C6_trailing (cfg : Config) (segs : List Nat) :
    split_audio cfg [] = [] ∧
    (0 < cfg.min_segment_length → segLen segs = 0 →
      split_audio cfg segs = []) ∧
    (∀ s : PackState, 0 < segLen s.current_segment →
      splitFinish s = s.out ++
        [⟨s.segment_start,
          s.segment_start + segLen s.current_segment / 1000,
          s.current_segment⟩]) := by
  refine ⟨?_, ?_, ?_⟩
  · simp [split_audio, splitFinish, initState, segLen]
  · intro hmin hzero
    have hf := fold_zero cfg hmin segs initState hzero (by simp [initState, segLen])
    unfold split_audio splitFinish
    rw [if_neg (by omega)]
    rw [hf.1]
    rfl
  · intro s hs
    unfold splitFinish
    rw [if_pos hs]

/-- Witness for C6: an all-zero input with the default band, and a
trailing flush of a residual accumulator. -/
theorem C6_witness :
    split_audio ⟨10000, 15000⟩ [0, 0] = [] ∧
    splitFinish ⟨[9000], 9, []⟩ = [⟨9, 18, [9000]⟩] :=
  ⟨(C6_trailing ⟨10000, 15000⟩ [0, 0]).2.1 (by decide) (by decide),
   (C6_trailing ⟨10000, 15000⟩ [0, 0]).2.2 ⟨[9000], 9, []⟩ (by decide)⟩

/-- Claim C7: Scenario 3 trace.  On segments [9000, 9000] with band
[10000, 15000] exactly two groups are emitted: [0, 9] carrying the first
segment (flushed from the pre-append state when the projected 18000
exceeds the ceiling) and [9, 18] carrying the second segment (emitted by
the end-of-stream flush). -/
theorem C7_scenario3 :
    split_audio ⟨10000, 15000⟩ [9000, 9000]
      = [⟨0, 9, [9000]⟩, ⟨9, 18, [9000]⟩] := by
  decide

/-- Claim C8: with a valid band, a segment whose duration alone exceeds
the ceiling arriving on an empty accumulator makes the overflow branch
flush a zero-duration group (start = end, empty payload) before the
segment seeds the next accumulator; in particular an oversized first
segment makes the first emitted group be [0, 0] with empty payload. -/
theorem C8_oversized (cfg : Config) (seg : Nat)
    (hband : cfg.min_segment_length ≤ cfg.max_segment_length)
    (hover : cfg.max_segment_length < seg) :
    (∀ s : PackState, s.current_segment = [] →
      splitStep cfg s seg =
        ⟨[seg], s.segment_start,
          s.out ++ [⟨s.segment_start, s.segment_start, []⟩]⟩) ∧
    (∀ rest : List Nat,
      (split_audio cfg (seg :: rest)).head? = some ⟨0, 0, []⟩) := by
  constructor
  · intro s hs
    exact stepB_empty cfg s seg hband hover hs
  · intro rest
    unfold split_audio
    rw [List.foldl_cons, stepB_empty cfg initState seg hband hover rfl]
    have hne : (PackState.out
        ⟨[seg], (initState).segment_start,
          (initState).out ++ [⟨(initState).segment_start,
            (initState).segment_start, []⟩]⟩) ≠ [] := by
      simp [initState]
    obtain ⟨hh, hne2⟩ := out_head_fold cfg rest _ hne
    rw [out_head_finish _ hne2, hh]
    rfl

/-- Witness for C8 with a 20000 ms first segment and the default band. -/
theorem C8_witness :
    splitStep ⟨10000, 15000⟩ ⟨[], 0, []⟩ 20000 =
      ⟨[20000], 0, [⟨0, 0, []⟩]⟩ ∧
    (split_audio ⟨10000, 15000⟩ [20000]).head? = some ⟨0, 0, []⟩ :=
  ⟨(C8_oversized ⟨10000, 15000⟩ 20000 (by decide) (by decide)).1
      ⟨[], 0, []⟩ rfl,
   (C8_oversized ⟨10000, 15000⟩ 20000 (by decide) (by decide)).2 []⟩

/-- Claim C9: whenever the output is non-empty, its first group starts at
time 0 (segment_start starts at 0 and is only advanced by a flush, which
appends a group first). -/
theorem C9_first_start (cfg : Config) (segs : List Nat) (g : OutputGroup)
    (hg : (split_audio cfg segs).head? = some g) : g.start_time_s = 0 := by
  obtain ⟨st, h⟩ := OutInv_split_audio cfg segs
  unfold OutInv at h
  exact h.2.2.2 g hg

/-- Witness for C9 at Scenario 2. -/
theorem C9_witness : OutputGroup.start_time_s ⟨0, 12, [6000, 6000]⟩ = 0 :=
  C9_first_start ⟨10000, 15000⟩ [6000, 6000] ⟨0, 12, [6000, 6000]⟩
    (by decide)

/-- Claim C10: every emitted group (overflow branch, within-band branch,
or trailing flush) satisfies end_time_s = start_time_s + payload duration
divided by 1000 with truncating Nat division, exactly; and since each
group starts exactly where the previous one ended, the truncated fraction
is discarded at each flush and never carried into later intervals. -/
theorem C10_truncation (cfg : Config) (segs : List Nat) :
    (∀ g ∈ split_audio cfg segs,
      g.end_time_s = g.start_time_s + segLen g.payload / 1000) ∧
    List.Chain' (fun a b => a.end_time_s = b.start_time_s)
      (split_audio cfg segs) := by
  obtain ⟨st, h⟩ := OutInv_split_audio cfg segs
  unfold OutInv at h
  exact ⟨h.2.1, h.2.2.1⟩

/-- Witness for C10 at the first Scenario 3 group (9000 ms truncated to 9 s). -/
theorem C10_witness :
    OutputGroup.end_time_s ⟨0, 9, [9000]⟩ =
      OutputGroup.start_time_s ⟨0, 9, [9000]⟩ +
        segLen (OutputGroup.payload ⟨0, 9, [9000]⟩) / 1000 :=
  (C10_truncation ⟨10000, 15000⟩ [9000, 9000]).1 ⟨0, 9, [9000]⟩ (by decide)

end AudioSplitter
